import Mathlib

/-!
Shallow embedding of `diskspace.py` (disk-usage tree reporting tool).

The program consumes a flat list of `(size-in-blocks, absolute-path)`
measurements (produced externally by `du`), builds a path-keyed tree
(`show_space_list`, build phase), sorts every node's children by size
(`show_space_list`, sort phase, Python's stable `sorted`), and renders the
tree depth-first from the root (`print_tree`), hiding nodes whose integer
percentage of the root's total falls below a threshold.

Modelling conventions:
  * The Python dict `file_tree` is an insertion-ordered association list;
    keys are inserted at most once (guarded by `in` checks in the source),
    mutation of an entry is in-place replacement.
  * The repository targets Python 2 (`from __future__ import print_function`):
    in `bytes_to_readable`, `/` on ints is floor division, so the loop
    condition `readable_bytes / 1024` is `1024 <= readable_bytes`.
  * The percentage `int(size / float(total) * 100)` is modelled with exact
    IEEE-754 binary64 semantics: every intermediate value is a dyadic
    rational rounded to 53 significant bits (round to nearest, ties to
    even), then truncated toward zero, reproducing double rounding
    artefacts such as 28 instead of 29 at `size = 29, total = 100`.
  * `print_tree` is recursive over a tree that, for arbitrary inputs, may
    contain cycles, so it is embedded with explicit fuel; fuel exhaustion
    is a distinguished outcome (`RenderResult.fuelOut`), and a separate
    theorem shows sufficient fuel exists for every tree the builder makes.
  * Output lines are modelled structurally (path, size, percentage, depth);
    the column padding and `os.path.basename` display are presentation-only
    string formatting over exactly these fields.
-/

namespace Diskspace

/-- One `(size, path)` measurement from the `du` output, after the regex
parse in `show_space_list` (`file_size = int(line[0])`, `file_path = line[-1]`). -/
structure Measurement where
  size : Nat
  path : String
deriving DecidableEq, Repr

/-- One `file_tree` entry: `{'children': [...], 'size': n}` in the source
(`print_size` is derived from `size` after the build and is not stored here). -/
structure Node where
  size : Nat
  children : List String
deriving DecidableEq, Repr

/-- The `file_tree` dict: insertion-ordered association list from path to node. -/
abbrev Tree := List (String × Node)

/-- Dict lookup `file_tree[p]`, `none` when the key is absent (Python `KeyError`). -/
def find? : Tree → String → Option Node
  | [], _ => none
  | (k, n) :: t, p => if k = p then some n else find? t p

/-- Membership test `p in file_tree`. -/
def containsKey (t : Tree) (p : String) : Bool :=
  (find? t p).isSome

/-- In-place update of the entry at key `p` (no-op when absent). -/
def modifyNode : Tree → String → (Node → Node) → Tree
  | [], _, _ => []
  | (k, n) :: t, p, f => if k = p then (k, f n) :: t else (k, n) :: modifyNode t p f

/-- Dict insertion `file_tree[p] = n` of a fresh key (appends in insertion order). -/
def addNode (t : Tree) (p : String) (n : Node) : Tree :=
  t ++ [(p, n)]

/-- `os.path.dirname` for POSIX paths, on the character list: the prefix up
to and including the last slash (`head = p[:p.rfind(sep) + 1]`), with
trailing slashes stripped unless the prefix is empty or all slashes
(`if head and head != sep*len(head): head = head.rstrip(sep)`). -/
def dirnameData (l : List Char) : List Char :=
  if (l.reverse.dropWhile (fun c => c ≠ '/')).reverse = [] ∨
      ((l.reverse.dropWhile (fun c => c ≠ '/')).reverse).all (fun c => c = '/') then
    (l.reverse.dropWhile (fun c => c ≠ '/')).reverse
  else (((l.reverse.dropWhile (fun c => c ≠ '/')).reverse).reverse.dropWhile
      (fun c => c = '/')).reverse

/-- `os.path.dirname` on strings. -/
def dirname (p : String) : String :=
  ⟨dirnameData p.data⟩

/-- One iteration of the build loop in `show_space_list`: state is
`(file_tree, total_size)`; `root` is `abs_directory`. -/
def buildStep (root : String) (st : Tree × Int) (m : Measurement) : Tree × Int :=
  if m.path = root then
    -- root branch: record total_size, set/create the root node, `continue`
    let t1 : Tree :=
      if containsKey st.1 m.path then
        modifyNode st.1 m.path (fun n => { n with size := m.size })
      else
        addNode st.1 m.path ⟨m.size, []⟩
    (t1, (m.size : Int))
  else
    -- non-root branch, in source statement order
    let t1 : Tree :=
      if containsKey st.1 m.path then st.1 else addNode st.1 m.path ⟨m.size, []⟩
    let dir : String := dirname m.path
    let t2 : Tree :=
      if containsKey t1 dir then t1 else addNode t1 dir ⟨0, []⟩
    let t3 : Tree := modifyNode t2 dir (fun n => { n with children := n.children ++ [m.path] })
    let t4 : Tree := modifyNode t3 m.path (fun n => { n with size := m.size })
    (t4, st.2)

/-- The build phase of `show_space_list`: fold the measurement stream over
`buildStep`, starting from the empty dict and the `total_size = -1` sentinel. -/
def build (root : String) (ms : List Measurement) : Tree × Int :=
  ms.foldl (buildStep root) ([], -1)

/-- Fueled division loop of `bytes_to_readable`; the fuel argument is an
embedding device only (any fuel at least `b` suffices, see `divCount_eq`). -/
def divCountAux : Nat → Nat → Nat
  | 0, _ => 0
  | fuel + 1, b => if 1024 ≤ b then divCountAux fuel (b / 1024) + 1 else 0

/-- Number of iterations of the division loop in `bytes_to_readable`
(Python 2 integer division: loop while `readable_bytes // 1024` is nonzero). -/
def divCount (b : Nat) : Nat :=
  divCountAux b b

/-- The unit-suffix table of `bytes_to_readable`. -/
def labels : List String := ["B", "Kb", "Mb", "Gb", "Tb"]

/-- `bytes_to_readable`: blocks are 512 bytes; the displayed value is
`byts / 1024.0 ** count` (rounded to two decimals only for printing, modelled
exactly); `none` models the `IndexError` when `count` exceeds the label table. -/
def bytesToReadable (blocks : Nat) : Option (ℚ × String) :=
  let byts := blocks * 512
  let count := divCount byts
  (labels.get? count).map (fun lab => (((byts : ℚ) / (1024 : ℚ) ^ count), lab))

/-- The sort key `lambda v: file_tree[v]['size']`: a child path's size looked
up in the tree. Children of built trees are always present as keys (proved
below), so the default node is never consulted on a program run. -/
def childKey (t : Tree) (c : String) : Nat :=
  ((find? t c).getD ⟨0, []⟩).size

/-- The comparison realised by Python's stable `sorted(key=size, reverse=order)`:
with `reverse=True` (descending) an element precedes another when its key is
at least as large; ties always compare `true`, so stability keeps insertion order. -/
def childLe (order : Bool) (t : Tree) (a b : String) : Bool :=
  if order then decide (childKey t b ≤ childKey t a) else decide (childKey t a ≤ childKey t b)

/-- Insert `x` into `l` before the first element it compares `le`-before;
with a total preorder whose ties compare `true`, this realises a stable sort. -/
def insertSorted (le : String → String → Bool) (x : String) : List String → List String
  | [] => [x]
  | y :: ys => if le x y then x :: y :: ys else y :: insertSorted le x ys

/-- Stable sort by `le` (the semantics of Python's stable `sorted`): any two
stable sorts under the same total preorder agree, so insertion sort is a
faithful embedding of Timsort's observable behaviour. -/
def stableSort (le : String → String → Bool) : List String → List String
  | [] => []
  | x :: xs => insertSorted le x (stableSort le xs)

/-- The sort phase of `show_space_list`: every node's children list is
replaced by its stable sort by looked-up size (`sorted` with `reverse=order`). -/
def sortTree (order : Bool) (t : Tree) : Tree :=
  t.map (fun kn => (kn.1, { kn.2 with children := stableSort (childLe order t) kn.2.children }))

/-! ### IEEE-754 binary64 model for the percentage computation

`print_tree` computes `int(node['size'] / float(total_size) * 100)`: both
operands are converted to double, divided, the quotient multiplied by the
exactly representable constant 100, and the product truncated toward zero.
Each step rounds to 53 significant bits (round to nearest, ties to even), and
the rounding is observable: at `size = 29, total = 100` the product is
`28.999999999999996` and the program renders 28, one below the exact floor. -/

/-- Number of binary digits of `n` (fueled; any fuel at least `n` suffices). -/
def bitsAux : Nat → Nat → Nat
  | 0, _ => 0
  | fuel + 1, n => if n = 0 then 0 else bitsAux fuel (n / 2) + 1

/-- Number of binary digits: `bits n = ⌊log₂ n⌋ + 1` for positive `n`. -/
def bits (n : Nat) : Nat :=
  bitsAux n n

/-- Round the non-negative rational `num / den` to the nearest integer with
ties to even — IEEE-754 default rounding. -/
def rnde (num den : Nat) : Nat :=
  let q := num / den
  let r := num % den
  if 2 * r < den then q
  else if den < 2 * r then q + 1
  else if q % 2 = 0 then q else q + 1

/-- `⌊log₂ (num / den)⌋` for positive `num`, `den`: the bit-length
difference, corrected by one comparison. -/
def log2floorQ (num den : Nat) : Int :=
  let d : Int := (bits num : Int) - (bits den : Int)
  if den * 2 ^ d.toNat ≤ num * 2 ^ (-d).toNat then d else d - 1

/-- Round the positive value `(num / den) * 2 ^ e0` to 53 significant bits
(round to nearest, ties to even), as a mantissa and binary exponent. -/
def roundPos (num den : Nat) (e0 : Int) : Nat × Int :=
  let e : Int := log2floorQ num den - 52
  (rnde (num * 2 ^ (-e).toNat) (den * 2 ^ e.toNat), e + e0)

/-- A binary64 value as an exact dyadic rational `m * 2 ^ e`. Normal-range
doubles only: gradual underflow (magnitudes below `2 ^ (-1021)`) and overflow
(at `2 ^ 1024`, where Python floats become `inf`) are beyond every value this
program can meet and are not modelled. -/
structure Dbl where
  m : Int
  e : Int
deriving DecidableEq, Repr

/-- Round the rational `(num / den) * 2 ^ e0` to binary64. A zero divisor
(Python raises `ZeroDivisionError`, possible only for a zero-size root
measurement) is given an arbitrary value; no claim touches it. -/
def roundQ (num den e0 : Int) : Dbl :=
  if num = 0 ∨ den = 0 then ⟨0, 0⟩
  else
    let p := roundPos num.natAbs den.natAbs e0
    if (0 ≤ num ∧ 0 ≤ den) ∨ (num < 0 ∧ den < 0) then ⟨(p.1 : Int), p.2⟩
    else ⟨-(p.1 : Int), p.2⟩

/-- `float(n)`: an integer converted to binary64. -/
def ofIntD (n : Int) : Dbl :=
  roundQ n 1 0

/-- IEEE binary64 division: the exact quotient, rounded. -/
def divD (a b : Dbl) : Dbl :=
  roundQ a.m b.m (a.e - b.e)

/-- IEEE binary64 multiplication by the exactly representable constant 100. -/
def mul100D (a : Dbl) : Dbl :=
  roundQ (a.m * 100) 1 a.e

/-- Python `int(x)` on a float: truncation toward zero. -/
def truncD (a : Dbl) : Int :=
  if 0 ≤ a.e then a.m * 2 ^ a.e.toNat else Int.tdiv a.m (2 ^ (-a.e).toNat)

/-- `int(file_tree_node['size'] / float(total_size) * 100)` in `print_tree`,
with binary64 semantics: convert both operands to double, divide, multiply by
100, truncate toward zero. -/
def percentage (size : Nat) (total : Int) : Int :=
  truncD (mul100D (divD (ofIntD (size : Int)) (ofIntD total)))

/-- One printed line of `print_tree`, structurally: the path being visited,
the node's size, its computed percentage, and the recursion depth. -/
structure Line where
  path : String
  size : Nat
  pct : Int
  depth : Nat
deriving DecidableEq, Repr

/-- Outcome of a fueled `print_tree` run: normal output, a `KeyError` on a
missing dict key, or fuel exhaustion (the embedding's stand-in for
non-termination of the unbounded Python recursion). -/
inductive RenderResult where
  | out (lines : List Line)
  | keyErr
  | fuelOut
deriving DecidableEq, Repr

/-- Sequence sibling results left to right, concatenating outputs and
propagating the first abnormal outcome (a raised exception in Python). -/
def seqResults : List RenderResult → RenderResult
  | [] => .out []
  | .out ls :: rs =>
    match seqResults rs with
    | .out rest => .out (ls ++ rest)
    | e => e
  | e :: _ => e

/-- `print_tree`, fueled: look up the node, compute its percentage, prune the
whole subtree when below the hide threshold, otherwise emit the node's line
followed by the renderings of its children in list order at `depth + 1`. -/
def printTree (fuel : Nat) (t : Tree) (path : String) (total hide : Int) (depth : Nat) :
    RenderResult :=
  match fuel with
  | 0 => .fuelOut
  | fuel' + 1 =>
    match find? t path with
    | none => .keyErr
    | some n =>
      let pct := percentage n.size total
      if pct < hide then .out []
      else
        match seqResults (n.children.map (fun c => printTree fuel' t c total hide (depth + 1))) with
        | .out rest => .out (⟨path, n.size, pct, depth⟩ :: rest)
        | e => e

/-- Length of the longest key in the tree; bounds the render recursion depth. -/
def maxKeyLen (t : Tree) : Nat :=
  t.foldr (fun kn acc => max kn.1.length acc) 0

/-- `show_space_list` end-to-end on an already-parsed measurement stream:
build, sort, compute every node's `print_size` (failing like the original
when `bytes_to_readable` indexes past its label table), then render from the
root. The fuel `maxKeyLen + 2` is proved sufficient below. -/
def showSpaceList (ms : List Measurement) (root : String) (order : Bool) (hide : Int) :
    Option (List Line) :=
  let built := build root ms
  let sorted := sortTree order built.1
  if sorted.all (fun kn => (bytesToReadable kn.2.size).isSome) then
    match printTree (maxKeyLen sorted + 2) sorted root built.2 hide 0 with
    | .out lines => some lines
    | _ => none
  else none

/-! ### Association-list dictionary lemmas -/

theorem find?_append_single (t : Tree) (p q : String) (n : Node) :
    find? (addNode t p n) q = ((find? t q).orElse (fun _ => if p = q then some n else none)) := by
  induction t with
  | nil => simp [addNode, find?]
  | cons kn t ih =>
    by_cases h : kn.1 = q
    · simp [addNode, find?, h]
    · simpa [addNode, find?, h] using ih

theorem find?_modifyNode (t : Tree) (p q : String) (f : Node → Node) :
    find? (modifyNode t p f) q =
      (if p = q then (find? t q).map f else find? t q) := by
  induction t with
  | nil => simp [modifyNode, find?]
  | cons kn t ih =>
    by_cases hkp : kn.1 = p
    · by_cases hkq : kn.1 = q
      · simp [modifyNode, find?, hkp, hkq, hkp ▸ hkq]
      · have hpq : ¬ p = q := fun h => hkq (hkp.trans h)
        simp [modifyNode, find?, hkp, hkq, hpq]
    · by_cases hkq : kn.1 = q
      · have hpq : ¬ p = q := fun h => hkp (hkq.trans h.symm)
        have hqp : ¬ q = p := fun h => hpq h.symm
        simp [modifyNode, find?, hkp, hkq, hpq, hqp]
      · simpa [modifyNode, find?, hkp, hkq] using ih

theorem containsKey_addNode (t : Tree) (p q : String) (n : Node) :
    containsKey (addNode t p n) q = (containsKey t q || p == q) := by
  simp only [containsKey, find?_append_single]
  cases h : find? t q with
  | none => by_cases hpq : p = q <;> simp [Option.orElse, hpq]
  | some m => simp [Option.orElse]

theorem containsKey_modifyNode (t : Tree) (p q : String) (f : Node → Node) :
    containsKey (modifyNode t p f) q = containsKey t q := by
  simp only [containsKey, find?_modifyNode]
  by_cases hpq : p = q
  · cases h : find? t q <;> simp [hpq, h]
  · simp [hpq]

/-- The children list stored at key `k`, empty when the key is absent. -/
def childrenOf (t : Tree) (k : String) : List String :=
  ((find? t k).getD ⟨0, []⟩).children

/-- The size stored at key `k`, when present. -/
def sizeAt (t : Tree) (k : String) : Option Nat :=
  (find? t k).map (fun n => n.size)

theorem childrenOf_addNode_absent (t : Tree) (p q : String) (s : Nat)
    (_h : containsKey t p = false) :
    childrenOf (addNode t p ⟨s, []⟩) q = childrenOf t q := by
  simp only [childrenOf, find?_append_single]
  cases hq : find? t q with
  | some m => simp [Option.orElse]
  | none =>
    by_cases hpq : p = q <;> simp [Option.orElse, hpq]

theorem childrenOf_modify_size (t : Tree) (p q : String) (s : Nat) :
    childrenOf (modifyNode t p (fun n => { n with size := s })) q = childrenOf t q := by
  simp only [childrenOf, find?_modifyNode]
  by_cases hpq : p = q
  · cases h : find? t q <;> simp [hpq, h]
  · simp [hpq]

theorem childrenOf_modify_append (t : Tree) (p q : String) (c : String)
    (hp : containsKey t p = true) :
    childrenOf (modifyNode t p (fun n => { n with children := n.children ++ [c] })) q =
      (if p = q then childrenOf t q ++ [c] else childrenOf t q) := by
  simp only [childrenOf, find?_modifyNode]
  by_cases hpq : p = q
  · subst hpq
    simp only [containsKey] at hp
    cases h : find? t p with
    | none => rw [h] at hp; simp at hp
    | some m => simp [h]
  · simp [hpq]

theorem sizeAt_addNode_absent (t : Tree) (p q : String) (n : Node)
    (hq : containsKey t p = false) :
    sizeAt (addNode t p n) q = if p = q then (sizeAt t q).getD n.size |> some else sizeAt t q := by
  simp only [sizeAt, find?_append_single]
  by_cases hpq : p = q
  · subst hpq
    cases h : find? t p with
    | none => simp [Option.orElse]
    | some m => simp [containsKey, h] at hq
  · cases h : find? t q <;> simp [Option.orElse, hpq, h]

theorem sizeAt_modify_children (t : Tree) (p q : String) (f : List String → List String) :
    sizeAt (modifyNode t p (fun n => { n with children := f n.children })) q = sizeAt t q := by
  simp only [sizeAt, find?_modifyNode]
  by_cases hpq : p = q
  · cases h : find? t q <;> simp [hpq, h]
  · simp [hpq]

theorem sizeAt_modify_size (t : Tree) (p q : String) (s : Nat) :
    sizeAt (modifyNode t p (fun n => { n with size := s })) q =
      (if p = q then (sizeAt t q).map (fun _ => s) else sizeAt t q) := by
  simp only [sizeAt, find?_modifyNode]
  by_cases hpq : p = q
  · cases h : find? t q <;> simp [hpq, h]
  · simp [hpq]

/-! ### Build-phase lemmas -/

theorem find?_none_of_contains_false (t : Tree) (p : String) (h : containsKey t p = false) :
    find? t p = none := by
  simp only [containsKey] at h
  cases hf : find? t p with
  | none => rfl
  | some n => rw [hf] at h; simp at h

theorem exists_find?_of_contains (t : Tree) (p : String) (h : containsKey t p = true) :
    ∃ n, find? t p = some n := by
  simp only [containsKey] at h
  cases hf : find? t p with
  | none => rw [hf] at h; simp at h
  | some n => exact ⟨n, rfl⟩

theorem buildStep_root_eq (root : String) (st : Tree × Int) (m : Measurement)
    (hr : m.path = root) :
    buildStep root st m =
      ((if containsKey st.1 root then
          modifyNode st.1 root (fun n => { n with size := m.size })
        else addNode st.1 root ⟨m.size, []⟩), (m.size : Int)) := by
  simp [buildStep, hr]

theorem buildStep_nonroot_eq (root : String) (st : Tree × Int) (m : Measurement)
    (hr : ¬ m.path = root) :
    buildStep root st m =
      (modifyNode
        (modifyNode
          (if containsKey
              (if containsKey st.1 m.path then st.1 else addNode st.1 m.path ⟨m.size, []⟩)
              (dirname m.path) then
            (if containsKey st.1 m.path then st.1 else addNode st.1 m.path ⟨m.size, []⟩)
          else addNode
            (if containsKey st.1 m.path then st.1 else addNode st.1 m.path ⟨m.size, []⟩)
            (dirname m.path) ⟨0, []⟩)
          (dirname m.path) (fun n => { n with children := n.children ++ [m.path] }))
        m.path (fun n => { n with size := m.size }), st.2) := by
  simp [buildStep, hr]

theorem buildStep_snd (root : String) (st : Tree × Int) (m : Measurement) :
    (buildStep root st m).2 = if m.path = root then (m.size : Int) else st.2 := by
  by_cases h : m.path = root
  · rw [buildStep_root_eq root st m h, if_pos h]
  · rw [buildStep_nonroot_eq root st m h, if_neg h]

theorem containsKey_ite_add (t : Tree) (p q : String) (n : Node)
    (h : containsKey t q = true) :
    containsKey (if containsKey t p then t else addNode t p n) q = true := by
  split
  · exact h
  · simp [containsKey_addNode, h]

theorem containsKey_ite_add_self (t : Tree) (p : String) (n : Node) :
    containsKey (if containsKey t p then t else addNode t p n) p = true := by
  split
  · assumption
  · simp [containsKey_addNode]

theorem containsKey_buildStep_mono (root : String) (st : Tree × Int) (m : Measurement)
    (q : String) (h : containsKey st.1 q = true) :
    containsKey (buildStep root st m).1 q = true := by
  by_cases hr : m.path = root
  · rw [buildStep_root_eq root st m hr]
    split
    · simp [containsKey_modifyNode, h]
    · simp [containsKey_addNode, h]
  · rw [buildStep_nonroot_eq root st m hr]
    simp only [containsKey_modifyNode]
    exact containsKey_ite_add _ _ _ _ (containsKey_ite_add _ _ _ _ h)

theorem containsKey_buildStep_path (root : String) (st : Tree × Int) (m : Measurement) :
    containsKey (buildStep root st m).1 m.path = true := by
  by_cases hr : m.path = root
  · rw [buildStep_root_eq root st m hr, hr]
    split
    · simp [containsKey_modifyNode]; assumption
    · simp [containsKey_addNode]
  · rw [buildStep_nonroot_eq root st m hr]
    simp only [containsKey_modifyNode]
    exact containsKey_ite_add _ _ _ _ (containsKey_ite_add_self _ _ _)

theorem containsKey_buildStep_dir (root : String) (st : Tree × Int) (m : Measurement)
    (hr : ¬ m.path = root) :
    containsKey (buildStep root st m).1 (dirname m.path) = true := by
  rw [buildStep_nonroot_eq root st m hr]
  simp only [containsKey_modifyNode]
  exact containsKey_ite_add_self _ _ _

theorem childrenOf_ite_add (t : Tree) (p q : String) (s : Nat) :
    childrenOf (if containsKey t p then t else addNode t p ⟨s, []⟩) q = childrenOf t q := by
  split
  · rfl
  · rename_i hc
    simp only [Bool.not_eq_true] at hc
    exact childrenOf_addNode_absent t p q s hc

theorem childrenOf_buildStep (root : String) (st : Tree × Int) (m : Measurement) (k : String) :
    childrenOf (buildStep root st m).1 k =
      childrenOf st.1 k ++ (if ¬ m.path = root ∧ dirname m.path = k then [m.path] else []) := by
  by_cases hr : m.path = root
  · rw [buildStep_root_eq root st m hr]
    simp only [hr, not_true, false_and, if_false, List.append_nil]
    split
    · exact childrenOf_modify_size st.1 root k m.size
    · rename_i hc
      simp only [Bool.not_eq_true] at hc
      exact childrenOf_addNode_absent st.1 root k m.size hc
  · rw [buildStep_nonroot_eq root st m hr]
    rw [childrenOf_modify_size]
    rw [childrenOf_modify_append]
    · rw [childrenOf_ite_add, childrenOf_ite_add]
      by_cases hk : dirname m.path = k
      · simp [hr, hk]
      · simp [hr, hk]
    · exact containsKey_ite_add_self _ _ _

theorem sizeAt_contains (t : Tree) (p : String) (h : containsKey t p = true) :
    ∃ s, sizeAt t p = some s := by
  obtain ⟨n, hn⟩ := exists_find?_of_contains t p h
  exact ⟨n.size, by simp [sizeAt, hn]⟩

theorem contains_of_sizeAt (t : Tree) (p : String) (s : Nat) (h : sizeAt t p = some s) :
    containsKey t p = true := by
  simp only [sizeAt] at h
  cases hf : find? t p with
  | none => rw [hf] at h; simp at h
  | some n => simp [containsKey, hf]

theorem sizeAt_modify_appendChild (t : Tree) (p q c : String) :
    sizeAt (modifyNode t p (fun n => { n with children := n.children ++ [c] })) q =
      sizeAt t q := by
  simp only [sizeAt, find?_modifyNode]
  by_cases hpq : p = q
  · cases h : find? t q <;> simp [hpq, h]
  · simp [hpq]

theorem sizeAt_ite_add (t : Tree) (p q : String) (n : Node) (hne : ¬ p = q) :
    sizeAt (if containsKey t p then t else addNode t p n) q = sizeAt t q := by
  split
  · rfl
  · rename_i hc
    simp only [Bool.not_eq_true] at hc
    rw [sizeAt_addNode_absent t p q n hc, if_neg hne]

theorem sizeAt_buildStep_path (root : String) (st : Tree × Int) (m : Measurement) :
    sizeAt (buildStep root st m).1 m.path = some m.size := by
  by_cases hr : m.path = root
  · rw [buildStep_root_eq root st m hr, hr]
    split
    · rename_i hc
      obtain ⟨s, hs⟩ := sizeAt_contains st.1 root hc
      rw [sizeAt_modify_size, if_pos rfl, hs]
      simp
    · rename_i hc
      simp only [Bool.not_eq_true] at hc
      rw [sizeAt_addNode_absent st.1 root root _ hc, if_pos rfl]
      have hnone : sizeAt st.1 root = none := by
        simp [sizeAt, find?_none_of_contains_false st.1 root hc]
      rw [hnone]
      rfl
  · rw [buildStep_nonroot_eq root st m hr]
    have h1 : containsKey
        (if containsKey st.1 m.path then st.1 else addNode st.1 m.path ⟨m.size, []⟩)
        m.path = true := containsKey_ite_add_self _ _ _
    have h2 : containsKey
        (if containsKey
            (if containsKey st.1 m.path then st.1 else addNode st.1 m.path ⟨m.size, []⟩)
            (dirname m.path) then
          (if containsKey st.1 m.path then st.1 else addNode st.1 m.path ⟨m.size, []⟩)
        else addNode
          (if containsKey st.1 m.path then st.1 else addNode st.1 m.path ⟨m.size, []⟩)
          (dirname m.path) ⟨0, []⟩) m.path = true := containsKey_ite_add _ _ _ _ h1
    obtain ⟨s, hs⟩ := sizeAt_contains _ m.path h2
    rw [sizeAt_modify_size, if_pos rfl, sizeAt_modify_appendChild, hs]
    simp

theorem sizeAt_buildStep_other (root : String) (st : Tree × Int) (m : Measurement)
    (p : String) (s : Nat) (hne : ¬ m.path = p) (h : sizeAt st.1 p = some s) :
    sizeAt (buildStep root st m).1 p = some s := by
  have hcont : containsKey st.1 p = true := contains_of_sizeAt st.1 p s h
  by_cases hr : m.path = root
  · rw [buildStep_root_eq root st m hr]
    rw [hr] at hne
    split
    · rw [sizeAt_modify_size, if_neg hne, h]
    · rename_i hc
      simp only [Bool.not_eq_true] at hc
      rw [sizeAt_addNode_absent st.1 root p _ hc, if_neg hne, h]
  · rw [buildStep_nonroot_eq root st m hr]
    set u : Tree := if containsKey st.1 m.path then st.1 else addNode st.1 m.path ⟨m.size, []⟩
      with hu
    have h1 : sizeAt u p = some s := by
      rw [hu, sizeAt_ite_add st.1 m.path p _ hne]
      exact h
    have hcont1 : containsKey u p = true := contains_of_sizeAt _ _ _ h1
    have h2 : sizeAt (if containsKey u (dirname m.path) then u
        else addNode u (dirname m.path) ⟨0, []⟩) p = some s := by
      split
      · exact h1
      · rename_i hc
        simp only [Bool.not_eq_true] at hc
        rw [sizeAt_addNode_absent _ _ _ _ hc]
        have hdp : ¬ dirname m.path = p := by
          intro he
          rw [he, hcont1] at hc
          exact absurd hc (by simp)
        rw [if_neg hdp]
        exact h1
    rw [sizeAt_modify_size, if_neg hne, sizeAt_modify_appendChild, h2]


/-! ### Whole-build characterizations -/

theorem containsKey_foldl_mono (root : String) (ms : List Measurement) (st : Tree × Int)
    (q : String) (h : containsKey st.1 q = true) :
    containsKey (ms.foldl (buildStep root) st).1 q = true := by
  induction ms generalizing st with
  | nil => exact h
  | cons m tl ih => exact ih _ (containsKey_buildStep_mono root st m q h)

theorem containsKey_build_path (root : String) (ms : List Measurement) (m : Measurement)
    (hm : m ∈ ms) : containsKey (build root ms).1 m.path = true := by
  have hgen : ∀ ms1 : List Measurement, m ∈ ms1 → ∀ st : Tree × Int,
      containsKey (ms1.foldl (buildStep root) st).1 m.path = true := by
    intro ms1
    induction ms1 with
    | nil => intro hmem; cases hmem
    | cons m0 tl ih =>
      intro hmem st
      rcases List.mem_cons.mp hmem with h0 | h0
      · subst h0
        exact containsKey_foldl_mono root tl _ m.path (containsKey_buildStep_path root st m)
      · exact ih h0 _
  exact hgen ms hm ([], -1)

theorem containsKey_build_dir (root : String) (ms : List Measurement) (m : Measurement)
    (hm : m ∈ ms) (hr : ¬ m.path = root) :
    containsKey (build root ms).1 (dirname m.path) = true := by
  have hgen : ∀ ms1 : List Measurement, m ∈ ms1 → ∀ st : Tree × Int,
      containsKey (ms1.foldl (buildStep root) st).1 (dirname m.path) = true := by
    intro ms1
    induction ms1 with
    | nil => intro hmem; cases hmem
    | cons m0 tl ih =>
      intro hmem st
      rcases List.mem_cons.mp hmem with h0 | h0
      · subst h0
        exact containsKey_foldl_mono root tl _ _ (containsKey_buildStep_dir root st m hr)
      · exact ih h0 _
  exact hgen ms hm ([], -1)

theorem childrenOf_foldl (root : String) (ms : List Measurement) (st : Tree × Int)
    (k : String) :
    childrenOf (ms.foldl (buildStep root) st).1 k =
      childrenOf st.1 k ++
        (ms.filter (fun m => decide (¬ m.path = root ∧ dirname m.path = k))).map
          (fun m => m.path) := by
  induction ms generalizing st with
  | nil => simp
  | cons m tl ih =>
    rw [List.foldl_cons, ih (buildStep root st m), childrenOf_buildStep, List.filter_cons]
    by_cases hc : ¬ m.path = root ∧ dirname m.path = k
    · simp [hc, List.append_assoc]
    · simp [hc]

/-- The children list at key `k` after the build is exactly the stream's
non-root paths whose directory name is `k`, in arrival order. -/
theorem childrenOf_build (root : String) (ms : List Measurement) (k : String) :
    childrenOf (build root ms).1 k =
      (ms.filter (fun m => decide (¬ m.path = root ∧ dirname m.path = k))).map
        (fun m => m.path) := by
  rw [build, childrenOf_foldl]
  simp [childrenOf, find?]

theorem sizeAt_foldl_preserve (root p : String) (ms : List Measurement) (s : Nat) :
    ∀ st : Tree × Int, (∀ m ∈ ms, ¬ m.path = p) → sizeAt st.1 p = some s →
      sizeAt (ms.foldl (buildStep root) st).1 p = some s := by
  induction ms with
  | nil => intro st _ h; exact h
  | cons m tl ih =>
    intro st hnone h
    exact ih _ (fun m' hm' => hnone m' (List.mem_cons_of_mem m hm'))
      (sizeAt_buildStep_other root st m p s (hnone m (List.mem_cons_self m tl)) h)

/-- A path's stored size after the build is the size of its last measurement
("last write wins": placeholders are corrected, duplicates overwrite). -/
theorem sizeAt_foldl_last (root p : String) (ms : List Measurement) :
    ∀ (st : Tree × Int) (mlast : Measurement),
      (ms.filter (fun m => m.path == p)).getLast? = some mlast →
      sizeAt (ms.foldl (buildStep root) st).1 p = some mlast.size := by
  induction ms using List.reverseRecOn with
  | nil => intro st mlast h; simp at h
  | append_singleton tl m ih =>
    intro st mlast h
    rw [List.foldl_append, List.foldl_cons, List.foldl_nil]
    rw [List.filter_append] at h
    by_cases hp : m.path = p
    · have hfil : List.filter (fun x => x.path == p) [m] = [m] := by
        simp [List.filter_cons, hp]
      rw [hfil, List.getLast?_concat] at h
      have hm : mlast = m := by
        injection h with h1
        exact h1.symm
      rw [hm, ← hp]
      exact sizeAt_buildStep_path root _ m
    · have hfil : List.filter (fun x => x.path == p) [m] = [] := by
        simp [List.filter_cons, hp]
      rw [hfil, List.append_nil] at h
      exact sizeAt_buildStep_other root _ m p mlast.size hp (ih st mlast h)

/-- `total_size` after the build: the last root measurement's size, or the
`-1` sentinel set before the loop when the root never appears. -/
theorem total_foldl (root : String) (ms : List Measurement) : ∀ st : Tree × Int,
    (ms.foldl (buildStep root) st).2 =
      ((ms.filter (fun m => m.path == root)).getLast?.elim st.2 (fun m => (m.size : Int))) := by
  induction ms using List.reverseRecOn with
  | nil => intro st; simp
  | append_singleton tl m ih =>
    intro st
    rw [List.foldl_append, List.foldl_cons, List.foldl_nil, buildStep_snd, List.filter_append]
    by_cases hp : m.path = root
    · have hfil : List.filter (fun x => x.path == root) [m] = [m] := by
        simp [List.filter_cons, hp]
      simp [hp, hfil, List.getLast?_concat]
    · have hfil : List.filter (fun x => x.path == root) [m] = [] := by
        simp [List.filter_cons, hp]
      simp [hp, hfil, ih st]

/-! ### dirname lemmas -/

/-- All-slash (or empty) strings; exactly the fixed points of `dirname`. -/
def allSlash (p : String) : Bool :=
  p.data.all (fun c => c = '/')

theorem dropWhile_head_false (q : Char → Bool) (l : List Char) (c : Char) (cs : List Char)
    (h : l.dropWhile q = c :: cs) : q c = false := by
  induction l with
  | nil => simp at h
  | cons a tl ih =>
    rw [List.dropWhile_cons] at h
    by_cases hq : q a = true
    · rw [if_pos hq] at h
      exact ih h
    · rw [if_neg hq] at h
      injection h with h1 _
      rw [h1] at hq
      simpa using hq

theorem dirnameData_of_allSlash (l : List Char) (h : ∀ c ∈ l, c = '/') :
    dirnameData l = l := by
  have hdrop : l.reverse.dropWhile (fun c => c ≠ '/') = l.reverse := by
    cases hrev : l.reverse with
    | nil => rfl
    | cons c cs =>
      have hcl : c ∈ l := by
        have hcr : c ∈ l.reverse := by
          rw [hrev]
          exact List.mem_cons_self c cs
        exact List.mem_reverse.mp hcr
      rw [List.dropWhile_cons, if_neg (by simp [h c hcl])]
  unfold dirnameData
  rw [hdrop, List.reverse_reverse]
  rw [if_pos (Or.inr (List.all_eq_true.mpr (fun c hc => by simp [h c hc])))]

theorem dirnameData_length_le (l : List Char) : (dirnameData l).length ≤ l.length := by
  have hH : ((l.reverse.dropWhile (fun c => c ≠ '/')).reverse).length ≤ l.length := by
    rw [List.length_reverse]
    calc (l.reverse.dropWhile (fun c => c ≠ '/')).length
        ≤ l.reverse.length := (List.dropWhile_suffix _).length_le
      _ = l.length := List.length_reverse l
  unfold dirnameData
  split
  · exact hH
  · refine le_trans ?_ hH
    rw [List.length_reverse]
    calc (((l.reverse.dropWhile (fun c => c ≠ '/')).reverse).reverse.dropWhile
          (fun c => c = '/')).length
        ≤ ((l.reverse.dropWhile (fun c => c ≠ '/')).reverse).reverse.length :=
          (List.dropWhile_suffix _).length_le
      _ = ((l.reverse.dropWhile (fun c => c ≠ '/')).reverse).length :=
          List.length_reverse _

theorem dirnameData_length_lt (l : List Char) (c0 : Char) (hc0 : c0 ∈ l)
    (hne : ¬ c0 = '/') : (dirnameData l).length < l.length := by
  have hlenpos : 0 < l.length := List.length_pos.mpr (fun h => by rw [h] at hc0; cases hc0)
  have hH : ((l.reverse.dropWhile (fun c => c ≠ '/')).reverse).length ≤ l.length := by
    rw [List.length_reverse]
    calc (l.reverse.dropWhile (fun c => c ≠ '/')).length
        ≤ l.reverse.length := (List.dropWhile_suffix _).length_le
      _ = l.length := List.length_reverse l
  unfold dirnameData
  split
  · rename_i hcond
    rcases hcond with hnil | hall
    · rw [hnil]
      simpa using hlenpos
    · -- the kept head is all slashes; it cannot be the whole list
      rcases Nat.lt_or_ge ((l.reverse.dropWhile (fun c => c ≠ '/')).reverse).length
          l.length with hlt | hge
      · exact hlt
      · exfalso
        have hlen : (l.reverse.dropWhile (fun c => c ≠ '/')).length = l.reverse.length := by
          have h1 : (l.reverse.dropWhile (fun c => c ≠ '/')).length ≤ l.reverse.length :=
            (List.dropWhile_suffix _).length_le
          have h2 : ((l.reverse.dropWhile (fun c => c ≠ '/')).reverse).length =
              (l.reverse.dropWhile (fun c => c ≠ '/')).length := List.length_reverse _
          rw [List.length_reverse] at h1 ⊢
          omega
        have heq : l.reverse.dropWhile (fun c => c ≠ '/') = l.reverse :=
          List.IsSuffix.eq_of_length (List.dropWhile_suffix _) hlen
        have hc0slash : c0 = '/' := by
          have hc0rev : c0 ∈ (l.reverse.dropWhile (fun c => c ≠ '/')).reverse := by
            rw [heq, List.reverse_reverse]
            exact hc0
          have := List.all_eq_true.mp hall c0 hc0rev
          simpa using this
        exact hne hc0slash
  · rename_i hcond
    push_neg at hcond
    obtain ⟨hnil, _hall⟩ := hcond
    cases hd : (l.reverse.dropWhile (fun c => c ≠ '/')) with
    | nil =>
      exfalso
      apply hnil
      rw [hd]
      rfl
    | cons c cs =>
      have hc : c = '/' := by
        have := dropWhile_head_false (fun c => (c ≠ '/' : Bool)) l.reverse c cs hd
        simpa using this
      have hstrip : (((c :: cs).reverse.reverse.dropWhile
          (fun c => c = '/')).reverse).length ≤ cs.length := by
        rw [List.length_reverse, List.reverse_reverse, List.dropWhile_cons,
          if_pos (by simp [hc])]
        exact (List.dropWhile_suffix _).length_le
      have hcs : cs.length + 1 ≤ l.length := by
        have h1 : (c :: cs).length ≤ l.reverse.length := by
          rw [← hd]
          exact (List.dropWhile_suffix _).length_le
        rw [List.length_reverse] at h1
        simpa using h1
      omega

theorem dirname_of_allSlash (p : String) (h : allSlash p = true) : dirname p = p := by
  have hdata : dirnameData p.data = p.data := by
    apply dirnameData_of_allSlash
    intro c hc
    have := List.all_eq_true.mp h c hc
    simpa using this
  cases p with
  | mk data => simpa [dirname] using congrArg String.mk hdata

theorem dirname_length_le (p : String) : (dirname p).length ≤ p.length :=
  dirnameData_length_le p.data

theorem dirname_length_lt (p : String) (h : allSlash p = false) :
    (dirname p).length < p.length := by
  have hex : ∃ c ∈ p.data, ¬ c = '/' := by
    by_contra hall
    push_neg at hall
    have : allSlash p = true := List.all_eq_true.mpr (fun c hc => by simp [hall c hc])
    rw [this] at h
    cases h
  obtain ⟨c0, hc0, hne⟩ := hex
  exact dirnameData_length_lt p.data c0 hc0 hne

/-! ### Stable sort lemmas -/

theorem mem_insertSorted (le : String → String → Bool) (x y : String) (l : List String) :
    y ∈ insertSorted le x l ↔ y = x ∨ y ∈ l := by
  induction l with
  | nil => simp [insertSorted]
  | cons a tl ih =>
    simp only [insertSorted]
    split
    · simp [List.mem_cons]
    · simp only [List.mem_cons, ih]
      tauto

theorem mem_stableSort (le : String → String → Bool) (y : String) (l : List String) :
    y ∈ stableSort le l ↔ y ∈ l := by
  induction l with
  | nil => simp [stableSort]
  | cons a tl ih =>
    simp only [stableSort, mem_insertSorted, List.mem_cons, ih]

theorem pairwise_insertSorted (le : String → String → Bool)
    (htrans : ∀ a b c, le a b = true → le b c = true → le a c = true)
    (htot : ∀ a b, le a b = true ∨ le b a = true)
    (x : String) (l : List String) (h : l.Pairwise (fun a b => le a b = true)) :
    (insertSorted le x l).Pairwise (fun a b => le a b = true) := by
  induction l with
  | nil => simp [insertSorted]
  | cons a tl ih =>
    rw [List.pairwise_cons] at h
    obtain ⟨ha, htl⟩ := h
    simp only [insertSorted]
    split
    · rename_i hxa
      rw [List.pairwise_cons]
      refine ⟨?_, List.pairwise_cons.mpr ⟨ha, htl⟩⟩
      intro b hb
      rcases List.mem_cons.mp hb with heq | hbtl
      · rw [heq]
        exact hxa
      · exact htrans x a b hxa (ha b hbtl)
    · rename_i hxa
      rw [List.pairwise_cons]
      refine ⟨?_, ih htl⟩
      intro b hb
      rcases (mem_insertSorted le x b tl).mp hb with heq | hbtl
      · rw [heq]
        rcases htot x a with h1 | h1
        · exact absurd h1 hxa
        · exact h1
      · exact ha b hbtl

theorem pairwise_stableSort (le : String → String → Bool)
    (htrans : ∀ a b c, le a b = true → le b c = true → le a c = true)
    (htot : ∀ a b, le a b = true ∨ le b a = true) (l : List String) :
    (stableSort le l).Pairwise (fun a b => le a b = true) := by
  induction l with
  | nil => simp [stableSort]
  | cons a tl ih => exact pairwise_insertSorted le htrans htot a _ ih

theorem filter_insertSorted (le : String → String → Bool) (p : String → Bool)
    (hcomp : ∀ a b, p a = true → p b = true → le a b = true)
    (x : String) (l : List String) :
    (insertSorted le x l).filter p = (x :: l).filter p := by
  induction l with
  | nil => rfl
  | cons a tl ih =>
    simp only [insertSorted]
    split
    · rfl
    · rename_i hxa
      by_cases hpx : p x = true
      · have hpa : p a = false := by
          rcases hb : p a with _ | _
          · rfl
          · exact absurd (hcomp x a hpx hb) hxa
        simp [List.filter_cons, hpa, hpx, ih]
      · have hpx2 : p x = false := by
          rcases hb : p x with _ | _
          · rfl
          · exact absurd hb hpx
        simp [List.filter_cons, hpx2, ih]

/-- Stability of the sort: elements sharing one key value keep their relative
order (their filtered subsequence is unchanged). -/
theorem filter_stableSort (le : String → String → Bool) (p : String → Bool)
    (hcomp : ∀ a b, p a = true → p b = true → le a b = true) (l : List String) :
    (stableSort le l).filter p = l.filter p := by
  induction l with
  | nil => rfl
  | cons a tl ih =>
    simp only [stableSort]
    rw [filter_insertSorted le p hcomp a (stableSort le tl)]
    simp [List.filter_cons, ih]

theorem find?_map_sort (t : Tree) (le : String → String → Bool) (k : String) :
    find? (t.map (fun kn => (kn.1, { kn.2 with children := stableSort le kn.2.children }))) k =
      (find? t k).map (fun n => { n with children := stableSort le n.children }) := by
  induction t with
  | nil => rfl
  | cons kn tl ih =>
    simp only [List.map_cons, find?]
    split <;> simp [*]

theorem find?_sortTree (order : Bool) (t : Tree) (k : String) :
    find? (sortTree order t) k =
      (find? t k).map
        (fun n => { n with children := stableSort (childLe order t) n.children }) :=
  find?_map_sort t (childLe order t) k

theorem childLe_trans (order : Bool) (t : Tree) (a b c : String)
    (h1 : childLe order t a b = true) (h2 : childLe order t b c = true) :
    childLe order t a c = true := by
  cases order
  · simp [childLe] at h1 h2 ⊢
    omega
  · simp [childLe] at h1 h2 ⊢
    omega

theorem childLe_total (order : Bool) (t : Tree) (a b : String) :
    childLe order t a b = true ∨ childLe order t b a = true := by
  cases order
  · simp [childLe]
    omega
  · simp [childLe]
    omega

theorem childLe_of_key_eq (order : Bool) (t : Tree) (s : Nat) (a b : String)
    (ha : (childKey t a == s) = true) (hb : (childKey t b == s) = true) :
    childLe order t a b = true := by
  rw [beq_iff_eq] at ha hb
  cases order
  · simp [childLe]
    omega
  · simp [childLe]
    omega

/-! ### Render lemmas -/

theorem seqResults_out_mem (rs : List RenderResult) (ls : List Line)
    (h : seqResults rs = .out ls) (l : Line) (hl : l ∈ ls) :
    ∃ r ∈ rs, ∃ ls2, r = .out ls2 ∧ l ∈ ls2 := by
  induction rs generalizing ls with
  | nil =>
    simp only [seqResults] at h
    injection h with h1
    rw [← h1] at hl
    cases hl
  | cons r rs ih =>
    cases r with
    | out ls1 =>
      simp only [seqResults] at h
      cases hrest : seqResults rs with
      | out rest =>
        rw [hrest] at h
        injection h with h1
        rw [← h1] at hl
        rcases List.mem_append.mp hl with h2 | h2
        · exact ⟨.out ls1, List.mem_cons_self _ _, ls1, rfl, h2⟩
        · obtain ⟨r2, hr2, ls3, hre, hl3⟩ := ih rest hrest h2
          exact ⟨r2, List.mem_cons_of_mem _ hr2, ls3, hre, hl3⟩
      | keyErr => rw [hrest] at h; cases h
      | fuelOut => rw [hrest] at h; cases h
    | keyErr => simp [seqResults] at h
    | fuelOut => simp [seqResults] at h

theorem seqResults_fuelOut (rs : List RenderResult) (h : seqResults rs = .fuelOut) :
    ∃ r ∈ rs, r = .fuelOut := by
  induction rs with
  | nil => simp [seqResults] at h
  | cons r rs ih =>
    cases r with
    | out ls1 =>
      simp only [seqResults] at h
      cases hrest : seqResults rs with
      | out rest => rw [hrest] at h; cases h
      | keyErr => rw [hrest] at h; cases h
      | fuelOut =>
        obtain ⟨r2, hr2, he⟩ := ih hrest
        exact ⟨r2, List.mem_cons_of_mem _ hr2, he⟩
    | keyErr => simp [seqResults] at h
    | fuelOut => exact ⟨.fuelOut, List.mem_cons_self _ _, rfl⟩

theorem printTree_zero (t : Tree) (path : String) (total hide : Int) (depth : Nat) :
    printTree 0 t path total hide depth = .fuelOut := rfl

theorem printTree_keyErr (fuel : Nat) (t : Tree) (path : String) (total hide : Int)
    (depth : Nat) (h : find? t path = none) :
    printTree (fuel + 1) t path total hide depth = .keyErr := by
  simp [printTree, h]

/-- Pruning: a node below the hide threshold renders as nothing, children
never visited (`return`, not `continue`). -/
theorem printTree_hidden (fuel : Nat) (t : Tree) (path : String) (total hide : Int)
    (depth : Nat) (n : Node) (hn : find? t path = some n)
    (hp : percentage n.size total < hide) :
    printTree (fuel + 1) t path total hide depth = .out [] := by
  simp [printTree, hn, hp]

theorem printTree_out_inv (fuel : Nat) (t : Tree) (path : String) (total hide : Int)
    (depth : Nat) (lines : List Line)
    (h : printTree (fuel + 1) t path total hide depth = .out lines) :
    ∃ n, find? t path = some n ∧
      ((percentage n.size total < hide ∧ lines = []) ∨
        (hide ≤ percentage n.size total ∧
          ∃ rest,
            seqResults (n.children.map (fun c => printTree fuel t c total hide (depth + 1))) =
              .out rest ∧
            lines = ⟨path, n.size, percentage n.size total, depth⟩ :: rest)) := by
  cases hf : find? t path with
  | none => rw [printTree_keyErr fuel t path total hide depth hf] at h; cases h
  | some n =>
    refine ⟨n, rfl, ?_⟩
    by_cases hp : percentage n.size total < hide
    · left
      rw [printTree_hidden fuel t path total hide depth n hf hp] at h
      injection h with h1
      exact ⟨hp, h1.symm⟩
    · right
      refine ⟨by omega, ?_⟩
      cases hs : seqResults (n.children.map (fun c => printTree fuel t c total hide (depth + 1))) with
      | out rest =>
        simp only [printTree, hf, hp, if_false, hs] at h
        injection h with h1
        exact ⟨rest, rfl, h1.symm⟩
      | keyErr => simp only [printTree, hf, hp, if_false, hs] at h; cases h
      | fuelOut => simp only [printTree, hf, hp, if_false, hs] at h; cases h

/-- Every emitted line belongs to a node of the tree, carries that node's
size, its truncated percentage of the total, and is at or above the hide
threshold. -/
theorem printTree_lines_sound (t : Tree) (total hide : Int) :
    ∀ (fuel : Nat) (path : String) (depth : Nat) (lines : List Line),
      printTree fuel t path total hide depth = .out lines →
      ∀ l ∈ lines, ∃ n, find? t l.path = some n ∧ l.size = n.size ∧
        l.pct = percentage n.size total ∧ hide ≤ l.pct := by
  intro fuel
  induction fuel with
  | zero => intro path depth lines h; cases h
  | succ fuel ih =>
    intro path depth lines h l hl
    obtain ⟨n, hn, hcase⟩ := printTree_out_inv fuel t path total hide depth lines h
    rcases hcase with ⟨_, hempty⟩ | ⟨hp, rest, hseq, hcons⟩
    · rw [hempty] at hl; cases hl
    · rw [hcons] at hl
      rcases List.mem_cons.mp hl with heq | hrest
      · rw [heq]
        exact ⟨n, hn, rfl, rfl, hp⟩
      · obtain ⟨r, hr, ls2, hre, hl2⟩ := seqResults_out_mem _ rest hseq l hrest
        obtain ⟨c, _, hcall⟩ := List.mem_map.mp hr
        refine ih c (depth + 1) ls2 ?_ l hl2
        rw [hcall, hre]

/-! ### Fuel sufficiency / termination -/

/-- The parent-link discipline the builder guarantees: every stored child was
registered under its own directory name, is never the root, and is a key. -/
def ChildLink (root : String) (t : Tree) : Prop :=
  ∀ k n, find? t k = some n → ∀ c ∈ n.children,
    dirname c = k ∧ ¬ c = root ∧ containsKey t c = true

theorem childLink_build (root : String) (ms : List Measurement) :
    ChildLink root (build root ms).1 := by
  intro k n hfind c hc
  have hchildren : n.children = childrenOf (build root ms).1 k := by
    simp [childrenOf, hfind]
  rw [hchildren, childrenOf_build] at hc
  obtain ⟨m, hm, hmp⟩ := List.mem_map.mp hc
  have hmfil := List.mem_filter.mp hm
  obtain ⟨hmms, hcond⟩ := hmfil
  rw [decide_eq_true_eq] at hcond
  obtain ⟨hroot, hdir⟩ := hcond
  refine ⟨by rw [← hmp]; exact hdir, by rw [← hmp]; exact hroot, ?_⟩
  rw [← hmp]
  exact containsKey_build_path root ms m hmms

theorem containsKey_sortTree (order : Bool) (t : Tree) (c : String) :
    containsKey (sortTree order t) c = containsKey t c := by
  simp only [containsKey, find?_sortTree]
  cases find? t c <;> simp

theorem childLink_sortTree (root : String) (order : Bool) (t : Tree)
    (h : ChildLink root t) : ChildLink root (sortTree order t) := by
  intro k n hfind c hc
  rw [find?_sortTree] at hfind
  cases hf : find? t k with
  | none => rw [hf] at hfind; cases hfind
  | some n0 =>
    rw [hf] at hfind
    injection hfind with h1
    rw [← h1] at hc
    have hc0 : c ∈ n0.children := (mem_stableSort _ c n0.children).mp hc
    obtain ⟨hdir, hroot, hkey⟩ := h k n0 hf c hc0
    exact ⟨hdir, hroot, by rw [containsKey_sortTree]; exact hkey⟩

theorem length_le_maxKeyLen (t : Tree) (c : String) (h : containsKey t c = true) :
    c.length ≤ maxKeyLen t := by
  induction t with
  | nil => simp [containsKey, find?] at h
  | cons kn tl ih =>
    simp only [containsKey, find?] at h
    have hcons : maxKeyLen (kn :: tl) = max kn.1.length (maxKeyLen tl) := rfl
    by_cases hk : kn.1 = c
    · rw [hcons, ← hk]
      exact le_max_left _ _
    · rw [if_neg hk] at h
      rw [hcons]
      exact le_trans (ih h) (le_max_right _ _)

/-- With fuel at least `maxKeyLen t + 2`, rendering never exhausts fuel on a
tree whose children respect the parent-link discipline: each recursion step
strictly increases the key length, which is bounded by the longest key. -/
theorem printTree_no_fuelOut (root : String) (t : Tree) (hCL : ChildLink root t)
    (total hide : Int) :
    ∀ (fuel : Nat) (k : String) (depth : Nat), 1 ≤ fuel →
      maxKeyLen t + 2 ≤ fuel + k.length →
      (k = root ∨ allSlash k = false) →
      ¬ printTree fuel t k total hide depth = .fuelOut := by
  intro fuel
  induction fuel with
  | zero => intro k depth h1 _ _ _; omega
  | succ fuel ih =>
    intro k depth _ h2 hgood h
    cases hf : find? t k with
    | none => rw [printTree_keyErr fuel t k total hide depth hf] at h; cases h
    | some n =>
      by_cases hp : percentage n.size total < hide
      · rw [printTree_hidden fuel t k total hide depth n hf hp] at h; cases h
      · have hseq : seqResults
            (n.children.map (fun c => printTree fuel t c total hide (depth + 1))) =
            .fuelOut := by
          cases hs : seqResults
              (n.children.map (fun c => printTree fuel t c total hide (depth + 1))) with
          | out rest => simp only [printTree, hf, hp, if_false, hs] at h; cases h
          | keyErr => simp only [printTree, hf, hp, if_false, hs] at h; cases h
          | fuelOut => rfl
        obtain ⟨r, hr, hre⟩ := seqResults_fuelOut _ hseq
        obtain ⟨c, hc, hcall⟩ := List.mem_map.mp hr
        obtain ⟨hdir, hcroot, hckey⟩ := hCL k n hf c hc
        have hclen : c.length ≤ maxKeyLen t := length_le_maxKeyLen t c hckey
        have hcslash : allSlash c = false := by
          cases hcs : allSlash c
          · rfl
          · exfalso
            have hfix : dirname c = c := dirname_of_allSlash c hcs
            rw [hfix] at hdir
            rcases hgood with hk | hk
            · rw [hdir, hk] at hcroot
              exact hcroot rfl
            · rw [← hdir, hcs] at hk
              cases hk
        have hlt : k.length < c.length := by
          have hdlt := dirname_length_lt c hcslash
          rw [hdir] at hdlt
          exact hdlt
        refine ih c (depth + 1) (by omega) (by omega) (Or.inr hcslash) ?_
        rw [hcall, hre]

/-! ### Division-loop lemmas -/

theorem divCountAux_zero (fuel : Nat) : divCountAux fuel 0 = 0 := by
  cases fuel with
  | zero => rfl
  | succ f => simp [divCountAux]

theorem divCountAux_mono (fuel1 : Nat) : ∀ (fuel2 b : Nat), b ≤ fuel1 → b ≤ fuel2 →
    divCountAux fuel1 b = divCountAux fuel2 b := by
  induction fuel1 with
  | zero =>
    intro fuel2 b h1 _
    have hb : b = 0 := by omega
    rw [hb, divCountAux_zero, divCountAux_zero]
  | succ f1 ih =>
    intro fuel2 b h1 h2
    cases fuel2 with
    | zero =>
      have hb : b = 0 := by omega
      rw [hb, divCountAux_zero, divCountAux_zero]
    | succ f2 =>
      simp only [divCountAux]
      by_cases h : 1024 ≤ b
      · rw [if_pos h, if_pos h]
        have hdiv : b / 1024 < b := Nat.div_lt_self (by omega) (by omega)
        rw [ih f2 (b / 1024) (by omega) (by omega)]
      · rw [if_neg h, if_neg h]

/-- The defining recurrence of the `bytes_to_readable` division loop. -/
theorem divCount_eq (b : Nat) :
    divCount b = if 1024 ≤ b then divCount (b / 1024) + 1 else 0 := by
  unfold divCount
  by_cases h : 1024 ≤ b
  · rw [if_pos h]
    obtain ⟨b1, rfl⟩ : ∃ b1, b = b1 + 1 := ⟨b - 1, by omega⟩
    simp only [divCountAux, if_pos h]
    have hdiv : (b1 + 1) / 1024 < b1 + 1 := Nat.div_lt_self (by omega) (by omega)
    rw [divCountAux_mono b1 ((b1 + 1) / 1024) ((b1 + 1) / 1024) (by omega) (le_refl _)]
  · rw [if_neg h]
    cases b with
    | zero => rfl
    | succ b1 => simp [divCountAux, h]

/-- After the loop, the remaining value is below 1024: the original byte
count is below `1024 ^ (count + 1)`. -/
theorem lt_pow_divCount (b : Nat) : b < 1024 ^ (divCount b + 1) := by
  induction b using Nat.strong_induction_on with
  | _ b ih =>
    rw [divCount_eq]
    by_cases h : 1024 ≤ b
    · rw [if_pos h]
      have hdiv : b / 1024 < b := Nat.div_lt_self (by omega) (by omega)
      have h1 := ih (b / 1024) hdiv
      have h2 : b < 1024 ^ (divCount (b / 1024) + 1) * 1024 :=
        (Nat.div_lt_iff_lt_mul (by omega)).mp h1
      calc b < 1024 ^ (divCount (b / 1024) + 1) * 1024 := h2
        _ = 1024 ^ (divCount (b / 1024) + 1 + 1) := by ring
    · rw [if_neg h]
      simpa using (by omega : b < 1024)

/-- While the loop keeps running, the byte count still dominates the
accumulated power: `count` is exactly `floor(log_1024 byts)` for large inputs. -/
theorem pow_le_of_divCount_ne_zero (b : Nat) (h : divCount b ≠ 0) :
    1024 ^ divCount b ≤ b := by
  induction b using Nat.strong_induction_on with
  | _ b ih =>
    rw [divCount_eq] at h ⊢
    by_cases h1024 : 1024 ≤ b
    · rw [if_pos h1024]
      by_cases hz : divCount (b / 1024) = 0
      · rw [hz]
        simpa using h1024
      · have hdiv : b / 1024 < b := Nat.div_lt_self (by omega) (by omega)
        have h1 := ih (b / 1024) hdiv hz
        have h2 : 1024 ^ divCount (b / 1024) * 1024 ≤ b := by
          have := (Nat.le_div_iff_mul_le (by omega : 0 < 1024)).mp h1
          omega
        calc 1024 ^ (divCount (b / 1024) + 1)
            = 1024 ^ divCount (b / 1024) * 1024 := by ring
          _ ≤ b := h2
    · rw [if_neg h1024] at h
      exact absurd rfl h


/-- Children of a well-linked node that is the root or not all-slash are
strictly longer than their parent key (and themselves not all-slash). -/
theorem childLink_length_lt (root : String) (t : Tree) (hCL : ChildLink root t)
    (k : String) (n : Node) (hf : find? t k = some n)
    (hgood : k = root ∨ allSlash k = false) (c : String) (hc : c ∈ n.children) :
    k.length < c.length ∧ allSlash c = false := by
  obtain ⟨hdir, hcroot, _⟩ := hCL k n hf c hc
  have hcslash : allSlash c = false := by
    cases hcs : allSlash c
    · rfl
    · exfalso
      have hfix : dirname c = c := dirname_of_allSlash c hcs
      rw [hfix] at hdir
      rcases hgood with hk | hk
      · rw [hdir, hk] at hcroot
        exact hcroot rfl
      · rw [← hdir, hcs] at hk
        cases hk
  have hdlt := dirname_length_lt c hcslash
  rw [hdir] at hdlt
  exact ⟨hdlt, hcslash⟩

/-! ### The claims -/

/-- C1: the spec demands an explicit `MissingRootMeasurement` error when the
root path never appears, with no percentage lines printed. The code does not
implement this: on the spec's own failing input (`/r` absent, only `/r/a`
present) `total_size` keeps its `-1` sentinel, and rendering prints the
zero-size placeholder root as a percentage line at `0%` (computed from the
sentinel) instead of raising; the children are silently pruned because their
sentinel percentages are negative. -/
theorem C1_missing_root_prints_sentinel_line :
    (build "/r" [⟨100, "/r/a"⟩]).2 = -1 ∧
    showSpaceList [⟨100, "/r/a"⟩] "/r" true 0 = some [⟨"/r", 0, 0, 0⟩] := by
  constructor
  · decide
  · decide

/-- C2 counterexample: the rendered percentage does not always equal the
exact floor. At `size = 29, total = 100`, binary64 evaluation of
`29 / 100.0 * 100` gives `28.999999999999996`, so the program renders 28
while `⌊100 · 29 / 100⌋ = 29`; consequently a node whose exact-floor
percentage equals the threshold 29 is hidden with its subtree instead of
being rendered. -/
theorem C2_counterexample :
    printTree 2 [("/x", ⟨29, []⟩)] "/x" 100 0 0 = .out [⟨"/x", 29, 28, 0⟩] ∧
    (100 * 29) / 100 = 29 ∧
    printTree 2 [("/x", ⟨29, []⟩)] "/x" 100 29 0 = .out [] := by
  refine ⟨by decide, by decide, by decide⟩

/-- C2 amended: with the percentage computed exactly as the program computes
it — binary64 evaluation of `int(size / float(total) * 100)`, which can land
one below the exact floor (28 instead of 29 at `size = 29, total = 100`) —
for every tree, positive total and threshold: every rendered line carries its
node's size and computed percentage and is at or above the threshold; a node
whose computed percentage is below the threshold renders as nothing together
with its entire subtree, even when a descendant's own percentage is at or
above the threshold; a node whose computed percentage is at or above the
threshold is rendered and heads its own output. -/
theorem C2_amended_percentage_and_pruning (t : Tree) (total hide : Int)
    (_htot : 0 < total) :
    (∀ (fuel : Nat) (path : String) (depth : Nat) (lines : List Line),
        printTree fuel t path total hide depth = .out lines →
        ∀ l ∈ lines, ∃ n, find? t l.path = some n ∧ l.size = n.size ∧
          l.pct = percentage n.size total ∧ hide ≤ l.pct) ∧
    (∀ (fuel : Nat) (path : String) (depth : Nat) (n : Node),
        find? t path = some n → percentage n.size total < hide →
        printTree (fuel + 1) t path total hide depth = .out []) ∧
    (∀ (fuel : Nat) (path : String) (depth : Nat) (n : Node) (lines : List Line),
        find? t path = some n → hide ≤ percentage n.size total →
        printTree (fuel + 1) t path total hide depth = .out lines →
        ∃ rest, lines = ⟨path, n.size, percentage n.size total, depth⟩ :: rest) := by
  refine ⟨?_, ?_, ?_⟩
  · intro fuel path depth lines h l hl
    exact printTree_lines_sound t total hide fuel path depth lines h l hl
  · intro fuel path depth n hn hp
    exact printTree_hidden fuel t path total hide depth n hn hp
  · intro fuel path depth n lines hn hp h
    obtain ⟨n2, hn2, hcase⟩ := printTree_out_inv fuel t path total hide depth lines h
    rw [hn] at hn2
    injection hn2 with he
    rw [← he] at hcase
    rcases hcase with ⟨hlt, _⟩ | ⟨_, rest, _, hcons⟩
    · omega
    · exact ⟨rest, hcons⟩

theorem C2_amended_percentage_and_pruning_witness :
    ∃ rest, ([⟨"/r", 200, 100, 0⟩, ⟨"/r/a", 100, 50, 1⟩] : List Line) =
      ⟨"/r", 200, percentage 200 200, 0⟩ :: rest :=
  (C2_amended_percentage_and_pruning [("/r", ⟨200, ["/r/a"]⟩), ("/r/a", ⟨100, []⟩)] 200 0
      (by decide)).2.2
    4 "/r" 0 ⟨200, ["/r/a"]⟩ [⟨"/r", 200, 100, 0⟩, ⟨"/r/a", 100, 50, 1⟩]
    (by decide) (by decide) (by decide)

/-- C3: whenever the root path appears in the stream, the built root node's
size is the (last) root measurement's declared size, `total_size` records the
same value, and the root is never appended to any children list (the root
branch of the loop does no parent-linking, and the non-root branch only
appends non-root paths). -/
theorem C3_root_measurement (ms : List Measurement) (root : String) (mlast : Measurement)
    (hlast : (ms.filter (fun m => m.path == root)).getLast? = some mlast) :
    (∃ n, find? (build root ms).1 root = some n ∧ n.size = mlast.size) ∧
    (build root ms).2 = (mlast.size : Int) ∧
    (∀ k n, find? (build root ms).1 k = some n → root ∉ n.children) := by
  refine ⟨?_, ?_, ?_⟩
  · have h : sizeAt (build root ms).1 root = some mlast.size :=
      sizeAt_foldl_last root root ms ([], -1) mlast hlast
    simp only [sizeAt] at h
    cases hf : find? (build root ms).1 root with
    | none => rw [hf] at h; cases h
    | some n =>
      rw [hf] at h
      simp only [Option.map] at h
      injection h with h1
      exact ⟨n, rfl, h1⟩
  · have h := total_foldl root ms ([], -1)
    rw [hlast] at h
    exact h
  · intro k n hfind hmem
    have hch : n.children = childrenOf (build root ms).1 k := by
      simp [childrenOf, hfind]
    rw [hch, childrenOf_build] at hmem
    obtain ⟨m, hm, hmp⟩ := List.mem_map.mp hmem
    have hcond := (List.mem_filter.mp hm).2
    rw [decide_eq_true_eq] at hcond
    rw [hmp] at hcond
    exact hcond.1 rfl

theorem C3_root_measurement_witness :
    ∃ n, find? (build "/r" [⟨100, "/r/a"⟩, ⟨200, "/r"⟩]).1 "/r" = some n ∧ n.size = 200 :=
  (C3_root_measurement [⟨100, "/r/a"⟩, ⟨200, "/r"⟩] "/r" ⟨200, "/r"⟩ (by decide)).1

/-- C4: after the sort phase, each node's children are ordered by the
referenced child's stored size — non-increasing for descending order,
non-decreasing for ascending — and children with equal sizes keep their
original relative order (the sort is stable: the subsequence at any fixed
size value is unchanged). -/
theorem C4_children_sorted_stably (t : Tree) (order : Bool) (k : String) (n0 n : Node)
    (hk : find? t k = some n0) (hsorted : find? (sortTree order t) k = some n) :
    (order = true → n.children.Pairwise (fun a b => childKey t b ≤ childKey t a)) ∧
    (order = false → n.children.Pairwise (fun a b => childKey t a ≤ childKey t b)) ∧
    (∀ s : Nat, n.children.filter (fun c => childKey t c == s) =
      n0.children.filter (fun c => childKey t c == s)) := by
  rw [find?_sortTree, hk] at hsorted
  simp only [Option.map] at hsorted
  injection hsorted with h1
  rw [← h1]
  refine ⟨?_, ?_, ?_⟩
  · intro ho
    rw [ho]
    have hp := pairwise_stableSort (childLe true t) (childLe_trans true t)
      (childLe_total true t) n0.children
    refine hp.imp ?_
    intro a b hab
    simpa [childLe] using hab
  · intro ho
    rw [ho]
    have hp := pairwise_stableSort (childLe false t) (childLe_trans false t)
      (childLe_total false t) n0.children
    refine hp.imp ?_
    intro a b hab
    simpa [childLe] using hab
  · intro s
    exact filter_stableSort (childLe order t) _
      (fun a b ha hb => childLe_of_key_eq order t s a b ha hb) n0.children

theorem C4_children_sorted_stably_witness :
    (List.filter (fun c => childKey
        [("/r", ⟨300, ["/r/a", "/r/b"]⟩), ("/r/a", ⟨100, []⟩), ("/r/b", ⟨200, []⟩)] c == 100)
        ["/r/b", "/r/a"]) =
      (List.filter (fun c => childKey
        [("/r", ⟨300, ["/r/a", "/r/b"]⟩), ("/r/a", ⟨100, []⟩), ("/r/b", ⟨200, []⟩)] c == 100)
        ["/r/a", "/r/b"]) :=
  (C4_children_sorted_stably
    [("/r", ⟨300, ["/r/a", "/r/b"]⟩), ("/r/a", ⟨100, []⟩), ("/r/b", ⟨200, []⟩)] true "/r"
    ⟨300, ["/r/a", "/r/b"]⟩ ⟨300, ["/r/b", "/r/a"]⟩ (by decide) (by decide)).2.2 100

/-- C5 counterexample: the claim "every non-root node's path has a
directory-name prefix that is also a key" fails on the built tree for
measurements `[(10, "/r"), (5, "/a/b/c")]` with root `"/r"`: the placeholder
node `"/a/b"` (created as a directory name) is non-root, yet its own
directory name `"/a"` is not a key. -/
theorem C5_counterexample :
    ¬ (∀ k n, find? (build "/r" [⟨10, "/r"⟩, ⟨5, "/a/b/c"⟩]).1 k = some n →
        ¬ k = "/r" →
        containsKey (build "/r" [⟨10, "/r"⟩, ⟨5, "/a/b/c"⟩]).1 (dirname k) = true) := by
  intro h
  have h2 := h "/a/b" ⟨0, ["/a/b/c"]⟩ (by decide) (by decide)
  exact absurd h2 (by decide)

/-- C5 amended: every path that occurs as a non-root measurement in the
stream has its directory name as a key of the built tree (created as a
zero-size placeholder if not yet seen, overwritten when its own measurement
arrives); placeholder nodes created only as directory names need not have
their own parent present. -/
theorem C5_measured_dirname_present (ms : List Measurement) (root : String)
    (m : Measurement) (hm : m ∈ ms) (hr : ¬ m.path = root) :
    containsKey (build root ms).1 (dirname m.path) = true :=
  containsKey_build_dir root ms m hm hr

theorem C5_measured_dirname_present_witness :
    containsKey (build "/r" [⟨10, "/r"⟩, ⟨5, "/a/b/c"⟩]).1 (dirname "/a/b/c") = true :=
  C5_measured_dirname_present [⟨10, "/r"⟩, ⟨5, "/a/b/c"⟩] "/r" ⟨5, "/a/b/c"⟩
    (by decide) (by decide)

/-- C6: for every non-negative block count, the numeric value emitted before
the unit suffix — `byts / 1024.0 ** count`, the exact value stored by
`bytesToReadable` — is strictly below 1024, where `count` is the number of
divisions performed while the byte count remained at least 1024. -/
theorem C6_value_below_1024 (blocks : Nat) :
    ((blocks * 512 : Nat) : ℚ) / (1024 : ℚ) ^ divCount (blocks * 512) < 1024 := by
  have h := lt_pow_divCount (blocks * 512)
  have hq : ((blocks * 512 : Nat) : ℚ) < (1024 : ℚ) ^ (divCount (blocks * 512) + 1) := by
    have h2 : ((blocks * 512 : Nat) : ℚ) <
        ((1024 ^ (divCount (blocks * 512) + 1) : Nat) : ℚ) := by
      exact_mod_cast h
    simpa using h2
  rw [div_lt_iff₀ (by positivity)]
  calc ((blocks * 512 : Nat) : ℚ)
      < (1024 : ℚ) ^ (divCount (blocks * 512) + 1) := hq
    _ = 1024 * (1024 : ℚ) ^ divCount (blocks * 512) := by ring

/-- C7: for byte counts below `1024^5` the division loop stops within 4
iterations and the label lookup stays inside the 5-entry table; at
`blocks = 2199023255552` (byte count exactly `1024^5`) the loop performs a
fifth division and the label lookup is out of range, so `bytes_to_readable`
fails (`IndexError`). -/
theorem C7_label_table_range :
    (∀ blocks : Nat, blocks * 512 < 1024 ^ 5 →
        divCount (blocks * 512) ≤ 4 ∧ (bytesToReadable blocks).isSome = true) ∧
    (1024 ^ 5 ≤ 2199023255552 * 512 ∧ divCount (2199023255552 * 512) = 5 ∧
      (bytesToReadable 2199023255552).isNone = true) := by
  constructor
  · intro blocks h
    have hcount : divCount (blocks * 512) ≤ 4 := by
      by_contra hc
      push_neg at hc
      have hne : divCount (blocks * 512) ≠ 0 := by omega
      have h1 := pow_le_of_divCount_ne_zero _ hne
      have h2 : (1024 : Nat) ^ 5 ≤ 1024 ^ divCount (blocks * 512) :=
        Nat.pow_le_pow_right (by omega) (by omega)
      have h3 : (1024 : Nat) ^ 5 ≤ blocks * 512 := le_trans h2 h1
      omega
    refine ⟨hcount, ?_⟩
    have hlt : divCount (blocks * 512) < 5 := by omega
    have hsome : ∀ c : Nat, c < 5 → (labels.get? c).isSome = true := by decide
    have h4 := hsome _ hlt
    simpa [bytesToReadable] using h4
  · refine ⟨by norm_num, by decide, by decide⟩

theorem C7_label_table_range_witness :
    divCount (3 * 512) ≤ 4 ∧ (bytesToReadable 3).isSome = true :=
  C7_label_table_range.1 3 (by norm_num)

/-- C8: end-to-end on `[(200, "/r"), (100, "/r/a"), (100, "/r/b")]` with root
`"/r"`: the recorded total is 200, and rendering descending with threshold 0
emits exactly `/r` at 100 percent, then `/r/a` and `/r/b` (equal sizes, kept
in insertion order by the stable sort) each at 50 percent. -/
theorem C8_end_to_end :
    (build "/r" [⟨200, "/r"⟩, ⟨100, "/r/a"⟩, ⟨100, "/r/b"⟩]).2 = 200 ∧
    showSpaceList [⟨200, "/r"⟩, ⟨100, "/r/a"⟩, ⟨100, "/r/b"⟩] "/r" true 0 =
      some [⟨"/r", 200, 100, 0⟩, ⟨"/r/a", 100, 50, 1⟩, ⟨"/r/b", 100, 50, 1⟩] := by
  constructor
  · decide
  · decide

theorem count_children_filter (root p k : String) (hp : ¬ p = root) (hk : dirname p = k)
    (ms : List Measurement) :
    ((ms.filter (fun m => decide (¬ m.path = root ∧ dirname m.path = k))).map
        (fun m => m.path)).count p =
      (ms.filter (fun m => m.path == p)).length := by
  induction ms with
  | nil => simp
  | cons m tl ih =>
    rw [List.filter_cons, List.filter_cons]
    by_cases h1 : m.path = p
    · rw [if_pos (by
        rw [decide_eq_true_eq]
        exact ⟨by rw [h1]; exact hp, by rw [h1]; exact hk⟩)]
      rw [if_pos (by rw [beq_iff_eq]; exact h1)]
      rw [List.map_cons, List.count_cons, List.length_cons, ih]
      simp [h1]
    · by_cases h2 : decide (¬ m.path = root ∧ dirname m.path = k) = true
      · rw [if_pos h2, if_neg (by simp [h1])]
        rw [List.map_cons, List.count_cons, ih]
        simp [h1]
      · rw [if_neg h2, if_neg (by simp [h1])]
        exact ih

/-- C9: a non-root path measured `k` separate times is appended `k` times to
its parent's children list (its multiplicity in the parent's children equals
its number of occurrences in the stream), its stored size is the last
occurrence's size, and rendering consequently emits its subtree once per
occurrence (demonstrated end-to-end on a duplicated measurement). -/
theorem C9_duplicate_measurements (ms : List Measurement) (root p : String)
    (hp : ¬ p = root) :
    ((childrenOf (build root ms).1 (dirname p)).count p =
      (ms.filter (fun m => m.path == p)).length) ∧
    (∀ mlast, (ms.filter (fun m => m.path == p)).getLast? = some mlast →
      sizeAt (build root ms).1 p = some mlast.size) ∧
    (showSpaceList [⟨200, "/r"⟩, ⟨50, "/r/a"⟩, ⟨50, "/r/a"⟩] "/r" true 0 =
      some [⟨"/r", 200, 100, 0⟩, ⟨"/r/a", 50, 25, 1⟩, ⟨"/r/a", 50, 25, 1⟩]) := by
  refine ⟨?_, ?_, by decide⟩
  · rw [childrenOf_build]
    exact count_children_filter root p (dirname p) hp rfl ms
  · intro mlast h
    exact sizeAt_foldl_last root p ms ([], -1) mlast h

theorem C9_duplicate_measurements_witness :
    (childrenOf (build "/r" [⟨200, "/r"⟩, ⟨50, "/r/a"⟩, ⟨50, "/r/a"⟩]).1
        (dirname "/r/a")).count "/r/a" =
      (([⟨200, "/r"⟩, ⟨50, "/r/a"⟩, ⟨50, "/r/a"⟩] : List Measurement).filter
        (fun m => m.path == "/r/a")).length :=
  (C9_duplicate_measurements [⟨200, "/r"⟩, ⟨50, "/r/a"⟩, ⟨50, "/r/a"⟩] "/r" "/r/a"
    (by decide)).1

/-- C10: `print_tree` terminates on every tree built and sorted by
`show_space_list`: every child of a well-formed node is strictly longer than
the key it is registered under (children are linked under their directory
name and never equal the root), so with fuel `maxKeyLen + 2` — the fuel
`showSpaceList` uses — the recursion never exhausts its fuel. -/
theorem C10_print_tree_terminates (ms : List Measurement) (root : String) (order : Bool)
    (hide : Int) (fuel depth : Nat)
    (hfuel : maxKeyLen (sortTree order (build root ms).1) + 2 ≤ fuel) :
    (∀ k n, find? (sortTree order (build root ms).1) k = some n →
        (k = root ∨ allSlash k = false) → ∀ c ∈ n.children, k.length < c.length) ∧
    ¬ printTree fuel (sortTree order (build root ms).1) root (build root ms).2 hide depth =
        .fuelOut := by
  have hCL : ChildLink root (sortTree order (build root ms).1) :=
    childLink_sortTree root order _ (childLink_build root ms)
  constructor
  · intro k n hf hgood c hc
    exact (childLink_length_lt root _ hCL k n hf hgood c hc).1
  · exact printTree_no_fuelOut root _ hCL _ hide fuel root depth (by omega) (by omega)
      (Or.inl rfl)

theorem C10_print_tree_terminates_witness :
    ¬ printTree 6 (sortTree true (build "/r" [⟨200, "/r"⟩, ⟨100, "/r/a"⟩]).1) "/r"
        (build "/r" [⟨200, "/r"⟩, ⟨100, "/r/a"⟩]).2 0 0 = .fuelOut :=
  (C10_print_tree_terminates [⟨200, "/r"⟩, ⟨100, "/r/a"⟩] "/r" true 0 6 0 (by decide)).2

end Diskspace
